import Mathlib

/-!
Verification of the forward-pass orchestrator of the xFasterTransformer
`CommonDecoder` (src/src/models/common_decoder.h) and the OPT decoder's
attention-mask preparation (OptDecoder::prepareAttnMask).

Each definition is a shallow embedding of the corresponding C++ code:
pure bookkeeping becomes Lean functions over `Nat`, the fatal checks
(`std::exit`) become `Except String`, buffers become row-indexed
functions or lists, and the control flow of the per-layer loop is
reified as an event trace.
-/

namespace XFT

/-! ## Decoder sequence-length state (CommonDecoder fields)

Fields `initSeqLen`, `accSeqLen`, `prefixSeqLen`, `prefixSharing` of
`CommonDecoder` (common_decoder.h, protected section). -/

structure DecoderState where
  initSeqLen : Nat
  accSeqLen : Nat
  prefixSeqLen : Nat
  prefixSharing : Bool
deriving DecidableEq, Repr

/-- Sequence-length bookkeeping of one `CommonDecoder::forward(ids, dims, step, logitsAll)`
call (common_decoder.h lines 333-364): at `step == 0` the code sets
`initSeqLen = seqLen` and `accSeqLen = 0`; on every call it then executes
`accSeqLen += seqLen` right after the embedding. The prefix-sharing branch
only changes call-local `pastSeqLen`/`inputSeqLen`, not these fields. -/
def forwardSeqState (s : DecoderState) (step seqLen : Nat) : DecoderState :=
  let s1 := if step = 0 then { s with initSeqLen := seqLen, accSeqLen := 0 } else s
  { s1 with accSeqLen := s1.accSeqLen + seqLen }

/-- Run a sequence of forward calls whose `step` arguments count up from
`step`, one call per entry of `seqLens` (the successive `dims[2]` arguments). -/
def runForwardCalls (s : DecoderState) (step : Nat) (seqLens : List Nat) : DecoderState :=
  match seqLens with
  | [] => s
  | l :: rest => runForwardCalls (forwardSeqState s step l) (step + 1) rest

/-! ## Fatal construction / context checks -/

/-- The layer-divisibility gate of the `CommonDecoder` constructor
(common_decoder.h lines 280-284): if `layers % ppSize != 0` the process
prints a diagnostic and exits before the decoder block is built. -/
def layersDivisibilityCheck (layers ppSize : Nat) : Except String Unit :=
  if layers % ppSize ≠ 0 then
    Except.error "layers cannot be evenly divided by pipeline parallel stage size(ppSize)"
  else
    Except.ok ()

/-- The shape fields of `DecoderContext` compared by `getDecoderContext`
when a context already exists (common_decoder.h lines 826-834). -/
structure CtxShape where
  hiddenSize : Nat
  attHeadNum : Nat
  kvHeadNum : Nat
  intermediateSize : Nat
  tpRank : Nat
deriving DecidableEq, Repr

/-- The five-field compatibility condition tested by `getDecoderContext`. -/
def CtxShape.sameShape (c req : CtxShape) : Prop :=
  c.hiddenSize = req.hiddenSize ∧ c.attHeadNum = req.attHeadNum ∧ c.kvHeadNum = req.kvHeadNum
    ∧ c.intermediateSize = req.intermediateSize ∧ c.tpRank = req.tpRank

instance (c req : CtxShape) : Decidable (c.sameShape req) := by
  unfold CtxShape.sameShape; infer_instance

/-- `CommonDecoder::getDecoderContext` restricted to its re-derivation branch
(common_decoder.h lines 826-834): when a context already exists, it is returned
unchanged if `hiddenSize`, `attHeadNum`, `kvHeadNum`, `intermediateSize` and
`tpRank` all match the request, and the process exits with a diagnostic
otherwise; with no existing context a fresh one is built from the request. -/
def getDecoderContext (existing : Option CtxShape) (req : CtxShape) : Except String CtxShape :=
  match existing with
  | some c =>
      if c.sameShape req then Except.ok c
      else Except.error "Different context size not unsupported!"
  | none => Except.ok req

/-! ## Continuous-batch entry point `forward(seqs, logitsAll)` -/

/-- One `xft::SequenceMeta` as used by the continuous-batch forward. -/
structure SeqMeta where
  inputSeqLen : Nat
  pastSeqLen : Nat
  step : Nat
  inputTokens : List Nat
deriving DecidableEq, Repr

/-- Decoder state touched by `forward(seqs, logitsAll)`: the execution-context
shape set by `ctx->resize(totInputSeqLen, totInputSeqLen + totPastSeqLen)`, the
activation-buffer shape set by `prepareBuffer`, and the static sizes. -/
structure CBDecoderState where
  ctxInputSeqLen : Nat
  ctxTotalSeqLen : Nat
  actRows : Nat
  actCols : Nat
  hiddenSize : Nat
  vocabSize : Nat
  splitOffsetV : Nat
  splitSizeV : Nat
deriving DecidableEq, Repr

/-- `CommonDecoder::prepareBuffer(ctx, totInputSeqLen, logitRows)`
(common_decoder.h lines 912-920): resizes `actBuffers` to
`(totInputSeqLen + outRows, hiddenSize)` with
`outRows = ceil(logitRows * vocabSize / hiddenSize)`. -/
def prepareBufferRows (hiddenSize vocabSize totInputSeqLen logitRows : Nat) : Nat :=
  totInputSeqLen + (logitRows * vocabSize + hiddenSize - 1) / hiddenSize

/-- `CommonDecoder::forward(seqs, logitsAll)` (common_decoder.h lines 591-693),
modelled at the level of its state effects: with an empty `seqs` it returns
`(nullptr, 0, 0)` immediately; otherwise it sums the input and past lengths,
resizes the context and the activation buffers, and returns the logits with
the predictor's split offset and size. The numeric content of the layers is
abstracted to a unit logits marker. -/
def forwardSeqs (st : CBDecoderState) (seqs : List SeqMeta) (logitsAll : Bool) :
    CBDecoderState × (Option Unit × Nat × Nat) :=
  match seqs with
  | [] => (st, (none, 0, 0))
  | s0 :: _ =>
      let totInputSeqLen := (seqs.map SeqMeta.inputSeqLen).sum
      let totPastSeqLen := (seqs.map SeqMeta.pastSeqLen).sum
      let logitRows := if !logitsAll && s0.step == 0 then seqs.length else totInputSeqLen
      let st1 := { st with
        ctxInputSeqLen := totInputSeqLen
        ctxTotalSeqLen := totInputSeqLen + totPastSeqLen
        actRows := prepareBufferRows st.hiddenSize st.vocabSize totInputSeqLen logitRows
        actCols := st.hiddenSize }
      (st1, (some (), st.splitOffsetV, st.splitSizeV))

/-! ## Per-layer attention/FFN execution-and-reduction protocol -/

/-- Which buffer `forwardFFN` reads: `attnOut` (the attention output held in
`ctx->tmpBuf`) or `embBuf` (the running activation / original per-layer input). -/
inductive FFNSrc where
  | attnOut : FFNSrc
  | embBuf : FFNSrc
deriving DecidableEq, Repr

/-- One event of the per-layer loop body of `CommonDecoder::forward`. -/
inductive LayerEvent where
  | attn : LayerEvent
  | reduceAttn : LayerEvent
  | ffn : FFNSrc → LayerEvent
  | reduceFFN : LayerEvent
deriving DecidableEq, Repr

/-- Event trace of one iteration of the per-layer loop of
`CommonDecoder::forward` (common_decoder.h lines 438-487), with `parallel`
standing for the `ATTN_MLP_PARALLEL` template argument and `workers` for
`messenger.getSize()` (the TP group size): run attention; if not parallel and
more than one worker, `reduceAdd` the attention output; then the FFN branch,
whose input is `embBuf` in the parallel case and `attnOut` otherwise, followed
by a `reduceAdd` into `embBuf` when there is more than one worker. -/
def layerTrace (parallel : Bool) (workers : Nat) : List LayerEvent :=
  [LayerEvent.attn]
    ++ (if parallel then []
        else if 1 < workers then [LayerEvent.reduceAttn] else [])
    ++ (if parallel then
          (if 1 < workers then [LayerEvent.ffn FFNSrc.embBuf, LayerEvent.reduceFFN]
           else [LayerEvent.ffn FFNSrc.embBuf])
        else
          (if 1 < workers then [LayerEvent.ffn FFNSrc.attnOut, LayerEvent.reduceFFN]
           else [LayerEvent.ffn FFNSrc.attnOut]))

/-! ## Logits rows and vocabulary shard of the single-request forward -/

/-- Number of rows fed to the final layer norm and the predictor by
`CommonDecoder::forward(ids, dims, step, logitsAll)` (common_decoder.h lines
505-551): `batchSize` is `userSideBS` at step 0 and `userSideBS * beamSize`
afterwards; without `logitsAll` only one row per batch item is projected,
with `logitsAll` every position is. -/
def forwardLogitsRows (userSideBS beamSize seqLen step : Nat) (logitsAll : Bool) : Nat :=
  let batchSize := if step = 0 then userSideBS else userSideBS * beamSize
  if logitsAll then batchSize * seqLen else batchSize

/-- Row selection feeding the final layer norm (common_decoder.h lines
505-515): when `inputSeqLen > 1` and full logits are not requested, row `b` of
the layer-norm input is the last position of batch item `b` in `embBuf`,
i.e. row `(b + 1) * inputSeqLen - 1`; otherwise `embBuf` is used as is. -/
def lnInput {α : Type} (embRows : Nat → α) (inputSeqLen : Nat) (logitsAll : Bool) :
    Nat → α :=
  if 1 < inputSeqLen ∧ logitsAll = false then
    fun b => embRows ((b + 1) * inputSeqLen - 1)
  else embRows

/-- Modelled from the spec: the vocabulary projection (`DistLinear`, not under
src/) splits the vocabulary across the TP ranks into near-equal contiguous
shards and reports each rank's shard as an `(offset, size)` pair from which the
caller reassembles full-vocabulary logits; with a single rank the shard is the
whole vocabulary. Chunks are of ceiling size `⌈vocabSize / workers⌉`, the last
rank taking the remainder. -/
def splitChunk (vocabSize workers : Nat) : Nat := (vocabSize + workers - 1) / workers

/-- Modelled from the spec: shard offset of `rank` in the `DistLinear` split. -/
def splitOffset (vocabSize workers rank : Nat) : Nat := rank * splitChunk vocabSize workers

/-- Modelled from the spec: shard size of `rank` in the `DistLinear` split. -/
def splitSize (vocabSize workers rank : Nat) : Nat :=
  min (splitChunk vocabSize workers) (vocabSize - splitOffset vocabSize workers rank)

/-! ## OptDecoder::prepareAttnMask -/

/-- The value of the C++ expression `std::numeric_limits<float>::lowest()`,
the lowest finite single-precision float, exactly: `-(2 - 2 ^ -23) * 2 ^ 127`. -/
def floatLowest : ℚ := -(2 ^ 128 - 2 ^ 104)

/-- Row `i` of one batch item of the step-0 OPT attention mask
(`OptDecoder::prepareAttnMask`): `memset` writes zeros to the first `i + 1`
entries, `std::fill_n` writes `lowest()` to the remaining `seqLen - i - 1`. -/
def optMaskRow (seqLen i : Nat) : List ℚ :=
  List.replicate (i + 1) 0 ++ List.replicate (seqLen - (i + 1)) floatLowest

/-- The `seqLen × seqLen` step-0 mask of one batch item: rows `i = 0 .. seqLen - 1`. -/
def optMaskBatchItem (seqLen : Nat) : List (List ℚ) :=
  (List.range seqLen).map (optMaskRow seqLen)

/-- `OptDecoder::prepareAttnMask` at `step == 0`: one `seqLen × seqLen` causal
mask per batch item `b = 0 .. batchSize - 1`. -/
def prepareAttnMask0 (batchSize seqLen : Nat) : List (List (List ℚ)) :=
  (List.range batchSize).map (fun _ => optMaskBatchItem seqLen)

/-- `OptDecoder::prepareAttnMask` at `step > 0`: `batchSize * accSeqLen`
entries, all set to zero by `memset`. -/
def prepareAttnMaskStepN (batchSize accSeqLen : Nat) : List ℚ :=
  List.replicate (batchSize * accSeqLen) 0

/-! ## Pipeline-parallel admission (TaskWaitingQueue) -/

/-- Modelled from the spec: the bounded ready queue `TaskWaitingQueue`
(sequence.h, not under src/; only its callers in common_decoder.h lines
394-421 are). Per the spec it is a FIFO with a fixed configured capacity, its
`isFull` query compares the current size against that capacity, and a push
against a full queue is rejected or blocked, never silently dropped — modelled
here as rejection (the queue is left unchanged). Entries are sequence IDs. -/
structure TaskWaitingQueue where
  capacity : Nat
  entries : List Nat
deriving DecidableEq, Repr

def TaskWaitingQueue.isFull (q : TaskWaitingQueue) : Bool :=
  q.capacity ≤ q.entries.length

def TaskWaitingQueue.push (q : TaskWaitingQueue) (sid : Nat) : TaskWaitingQueue :=
  if q.isFull then q else { q with entries := q.entries ++ [sid] }

def TaskWaitingQueue.pop (q : TaskWaitingQueue) : TaskWaitingQueue × Option Nat :=
  match q.entries with
  | [] => (q, none)
  | x :: rest => ({ q with entries := rest }, some x)

/-- Scheduling state of one PP stage: the bounded ready queue, the inbound
queue of locally originated requests (`InputQueue`) and the registry of live
sequence IDs (`SequencePool`). -/
structure SchedState where
  ready : TaskWaitingQueue
  inbound : List Nat
  pool : List Nat
deriving DecidableEq, Repr

/-- Phase 1 of the admission segment (common_decoder.h lines 384-401): if a
sequence group arrived from the previous stage, register it in the pool if it
is new and push it onto the ready queue. -/
def recvStep (st : SchedState) (recvID : Option Nat) : SchedState :=
  match recvID with
  | some sid =>
      let pool1 := if sid ∈ st.pool then st.pool else st.pool ++ [sid]
      { st with pool := pool1, ready := st.ready.push sid }
  | none => st

/-- Phase 2 of the admission segment (common_decoder.h lines 403-412): if the
inbound queue is non-empty and the ready queue is not full, pop one inbound
request, register it, and push it onto the ready queue. -/
def admitStep (st : SchedState) : SchedState :=
  match st.inbound with
  | [] => st
  | sid :: rest =>
      if st.ready.isFull then st
      else { st with inbound := rest, pool := st.pool ++ [sid], ready := st.ready.push sid }

/-- Phase 3 of the admission segment (common_decoder.h lines 414-421): pop
exactly one ready sequence group to run this tick. -/
def runStep (st : SchedState) : SchedState × Option Nat :=
  let popped := st.ready.pop
  ({ st with ready := popped.1 }, popped.2)

/-- The full admission segment of one pipeline-parallel
`CommonDecoder::forward` tick (common_decoder.h lines 384-421). -/
def ppAdmission (st : SchedState) (recvID : Option Nat) : SchedState × Option Nat :=
  runStep (admitStep (recvStep st recvID))

/-! ## KV-cache events of the per-layer loop -/

/-- KV-cache events emitted by the per-layer loop of `CommonDecoder::forward`
(common_decoder.h lines 438-460): `append i s` is layer `i`'s attention
appending the positions of step `s` to its KV cache (inside
`forwardAttention`), `expandCache i` is `kvCacheMgr->expandCache(i, ...)`,
`prefixExpand i` is `kvCacheMgr->expandPrefixCache(i, ...)`. -/
inductive CacheEv where
  | append : Nat → Nat → CacheEv
  | expandCache : Nat → CacheEv
  | prefixExpand : Nat → CacheEv
deriving DecidableEq, Repr

/-- The layer an event belongs to. -/
def layerOf : CacheEv → Nat
  | CacheEv.append i _ => i
  | CacheEv.expandCache i => i
  | CacheEv.prefixExpand i => i

/-- Cache events of iteration `i` of the per-layer loop at step `step`
(common_decoder.h lines 438-460): at step 0 with prefix sharing the prefix
cache of layer `i` is expanded first; then `forwardAttention` appends step
`step`; then, at step 0 with `beamSize > 1`, `expandCache(i, ...)` runs. -/
def layerCacheEvs (step beamSize : Nat) (ps : Bool) (i : Nat) : List CacheEv :=
  (if step = 0 ∧ ps = true then [CacheEv.prefixExpand i] else [])
    ++ [CacheEv.append i step]
    ++ (if step = 0 ∧ 1 < beamSize then [CacheEv.expandCache i] else [])

/-- Cache events of one whole forward call at step `step`: the loop body for
layers `0 .. numLayers - 1` in order. -/
def fwdCacheTrace (numLayers step beamSize : Nat) (ps : Bool) : List CacheEv :=
  match numLayers with
  | 0 => []
  | n + 1 => fwdCacheTrace n step beamSize ps ++ layerCacheEvs step beamSize ps n

/-- Cache events of a whole generation: forward calls with steps
`0 .. nCalls - 1` in order. -/
def genCacheTrace (numLayers nCalls beamSize : Nat) (ps : Bool) : List CacheEv :=
  match nCalls with
  | 0 => []
  | n + 1 => genCacheTrace numLayers n beamSize ps ++ fwdCacheTrace numLayers n beamSize ps

/-! ## Beam replication of the step-0 logits -/

/-- One `memcpy(dst, src, splitSize * sizeof(float))` of the beam-expansion
loop, at the granularity of whole logits rows: row `dst` takes the current
content of row `src`, all other rows keep their content. -/
def copyRow {α : Type} (buf : Nat → α) (dst src : Nat) : Nat → α :=
  fun r => if r = dst then buf src else buf r

/-- First `j` iterations of the inner beam-expansion loop for prompt `b`
(common_decoder.h lines 575-580): iteration `j` handles row
`idx = b * beamSize + j`, skipping it when `idx == b` and otherwise copying the
current content of row `b` into it. -/
def beamInnerIter {α : Type} (b beamSize : Nat) (buf : Nat → α) : Nat → Nat → α
  | 0 => buf
  | j + 1 =>
      let acc := beamInnerIter b beamSize buf j
      if b * beamSize + j = b then acc else copyRow acc (b * beamSize + j) b

/-- The full inner loop for prompt `b`: `idx` from `b * beamSize` to
`(b + 1) * beamSize - 1`. -/
def beamCopy {α : Type} (b beamSize : Nat) (buf : Nat → α) : Nat → α :=
  beamInnerIter b beamSize buf beamSize

/-- The outer beam-expansion loop of `CommonDecoder::forward`
(common_decoder.h lines 572-582): prompts are processed from
`b = userSideBS - 1` downwards to `b = 0`. -/
def expandBeams {α : Type} (userSideBS beamSize : Nat) (buf : Nat → α) : Nat → α :=
  match userSideBS with
  | 0 => buf
  | n + 1 => expandBeams n beamSize (beamCopy n beamSize buf)

/-! ## Theorems -/

/-- Auxiliary: entry `j` of a step-0 mask row is 0 below or on the diagonal
and the lowest finite float above it. -/
theorem optMaskRow_getElem (seqLen i j : Nat) (hj : j < seqLen) :
    (optMaskRow seqLen i)[j]? = some (if j ≤ i then (0 : ℚ) else floatLowest) := by
  rw [optMaskRow, List.getElem?_append]
  by_cases hij : j ≤ i
  · have hlt : j < (List.replicate (i + 1) (0 : ℚ)).length := by
      simp [List.length_replicate]; omega
    rw [if_pos hlt]
    simp [List.getElem?_replicate, hij, Nat.lt_succ_of_le hij]
  · have hge : ¬ j < (List.replicate (i + 1) (0 : ℚ)).length := by
      simp [List.length_replicate]; omega
    rw [if_neg hge]
    have hlt2 : j - (List.replicate (i + 1) (0 : ℚ)).length < seqLen - (i + 1) := by
      simp [List.length_replicate]; omega
    simp only [List.getElem?_replicate, if_pos hlt2]
    simp [hij]

/-- C10: `OptDecoder::prepareAttnMask` at step 0 builds, for every batch item
`b`, a `seqLen × seqLen` causal mask whose entry `(i, j)` is 0 for `j ≤ i` and
the lowest finite float for `j > i`; at every step greater than 0 it builds a
mask of `batchSize * accSeqLen` entries that are all 0. -/
theorem opt_prepareAttnMask_spec (batchSize seqLen accSeqLen b i j : Nat)
    (hb : b < batchSize) (hi : i < seqLen) (hj : j < seqLen) :
    ((prepareAttnMask0 batchSize seqLen)[b]?.bind fun m => (m[i]?.bind fun r => r[j]?))
        = some (if j ≤ i then (0 : ℚ) else floatLowest)
      ∧ (prepareAttnMaskStepN batchSize accSeqLen).length = batchSize * accSeqLen
      ∧ (∀ x ∈ prepareAttnMaskStepN batchSize accSeqLen, x = 0) := by
  refine ⟨?_, by simp [prepareAttnMaskStepN], ?_⟩
  · have h0 : (prepareAttnMask0 batchSize seqLen)[b]? = some (optMaskBatchItem seqLen) := by
      simp [prepareAttnMask0, List.getElem?_map, List.getElem?_range, hb]
    have h1 : (optMaskBatchItem seqLen)[i]? = some (optMaskRow seqLen i) := by
      simp [optMaskBatchItem, List.getElem?_map, List.getElem?_range, hi]
    rw [h0, Option.some_bind, h1, Option.some_bind]
    exact optMaskRow_getElem seqLen i j hj
  · intro x hx
    exact List.eq_of_mem_replicate hx

/-- Witness for C10 at batch 2, sequence length 3, accumulated length 4,
entry (1, 2) of batch item 1. -/
theorem opt_prepareAttnMask_spec_witness :
    1 < 2 ∧ 1 < 3 ∧ 2 < 3 ∧
      (((prepareAttnMask0 2 3)[1]?.bind fun m => (m[1]?.bind fun r => r[2]?))
          = some (if 2 ≤ 1 then (0 : ℚ) else floatLowest)
        ∧ (prepareAttnMaskStepN 2 4).length = 2 * 4
        ∧ (∀ x ∈ prepareAttnMaskStepN 2 4, x = 0)) :=
  ⟨by decide, by decide, by decide,
    opt_prepareAttnMask_spec 2 3 4 1 1 2 (by decide) (by decide) (by decide)⟩

/-- Auxiliary: a push against a full queue is rejected, leaving it unchanged. -/
theorem TaskWaitingQueue.push_full (q : TaskWaitingQueue) (sid : Nat)
    (hfull : q.isFull = true) : q.push sid = q := by
  simp [TaskWaitingQueue.push, hfull]

/-- Auxiliary: a push against a non-full queue appends the entry. -/
theorem TaskWaitingQueue.push_not_full (q : TaskWaitingQueue) (sid : Nat)
    (hnf : q.isFull = false) :
    q.push sid = { q with entries := q.entries ++ [sid] } := by
  simp [TaskWaitingQueue.push, hnf]

/-- Auxiliary: a push keeps the ready queue within its capacity and never
changes the capacity. -/
theorem TaskWaitingQueue.push_bound (q : TaskWaitingQueue) (sid : Nat)
    (h : q.entries.length ≤ q.capacity) :
    (q.push sid).entries.length ≤ (q.push sid).capacity
      ∧ (q.push sid).capacity = q.capacity := by
  by_cases hf : q.isFull = true
  · rw [TaskWaitingQueue.push_full q sid hf]
    exact ⟨h, rfl⟩
  · have hff : q.isFull = false := by rwa [Bool.not_eq_true] at hf
    rw [TaskWaitingQueue.push_not_full q sid hff]
    refine ⟨?_, rfl⟩
    have hlt : ¬ q.capacity ≤ q.entries.length := by
      unfold TaskWaitingQueue.isFull at hff
      exact of_decide_eq_false hff
    show (q.entries ++ [sid]).length ≤ q.capacity
    simp only [List.length_append, List.length_cons, List.length_nil]
    omega

/-- Auxiliary: a pop keeps the ready queue within its capacity and never
changes the capacity. -/
theorem TaskWaitingQueue.pop_bound (q : TaskWaitingQueue)
    (h : q.entries.length ≤ q.capacity) :
    (q.pop).1.entries.length ≤ (q.pop).1.capacity
      ∧ (q.pop).1.capacity = q.capacity := by
  cases hq : q.entries with
  | nil =>
      have hpop : q.pop = (q, none) := by
        unfold TaskWaitingQueue.pop
        rw [hq]
      rw [hpop]
      exact ⟨h, rfl⟩
  | cons x rest =>
      have hpop : q.pop = ({ q with entries := rest }, some x) := by
        unfold TaskWaitingQueue.pop
        rw [hq]
      rw [hpop]
      refine ⟨?_, rfl⟩
      show rest.length ≤ q.capacity
      have hlen : q.entries.length = rest.length + 1 := by rw [hq]; rfl
      omega

/-- Auxiliary: one full admission tick keeps the ready queue within its
capacity and preserves the capacity. -/
theorem ppAdmission_bound (st : SchedState) (e : Option Nat)
    (h : st.ready.entries.length ≤ st.ready.capacity) :
    (ppAdmission st e).1.ready.entries.length ≤ (ppAdmission st e).1.ready.capacity
      ∧ (ppAdmission st e).1.ready.capacity = st.ready.capacity := by
  have h1 : (recvStep st e).ready.entries.length ≤ (recvStep st e).ready.capacity
      ∧ (recvStep st e).ready.capacity = st.ready.capacity := by
    cases e with
    | none => exact ⟨h, rfl⟩
    | some sid => exact TaskWaitingQueue.push_bound st.ready sid h
  have h2 : (admitStep (recvStep st e)).ready.entries.length
        ≤ (admitStep (recvStep st e)).ready.capacity
      ∧ (admitStep (recvStep st e)).ready.capacity = (recvStep st e).ready.capacity := by
    generalize recvStep st e = s1 at h1 ⊢
    obtain ⟨ready1, inbound1, pool1⟩ := s1
    cases inbound1 with
    | nil => exact ⟨h1.1, rfl⟩
    | cons sid rest =>
        have hstep : admitStep ⟨ready1, sid :: rest, pool1⟩
            = if ready1.isFull then ⟨ready1, sid :: rest, pool1⟩
              else ⟨ready1.push sid, rest, pool1 ++ [sid]⟩ := rfl
        rw [hstep]
        by_cases hf : ready1.isFull = true
        · rw [if_pos hf]
          exact ⟨h1.1, rfl⟩
        · rw [if_neg hf]
          exact TaskWaitingQueue.push_bound ready1 sid h1.1
  have h3 := TaskWaitingQueue.pop_bound (admitStep (recvStep st e)).ready h2.1
  constructor
  · show ((admitStep (recvStep st e)).ready.pop).1.entries.length
      ≤ ((admitStep (recvStep st e)).ready.pop).1.capacity
    exact h3.1
  · show ((admitStep (recvStep st e)).ready.pop).1.capacity = st.ready.capacity
    rw [h3.2, h2.2, h1.2]

/-- C3: across any sequence of pipeline-parallel forward ticks — each with an
optional sequence group received from the previous stage and pushed onto the
ready queue — the ready queue never holds more entries than its configured
capacity, the capacity itself never changes, and a push against a full queue
leaves the queue unchanged (rejected, never silently oversubscribing it). -/
theorem ready_queue_never_exceeds_capacity (init : SchedState) (evs : List (Option Nat))
    (h : init.ready.entries.length ≤ init.ready.capacity) :
    ((evs.foldl (fun s e => (ppAdmission s e).1) init).ready.entries.length
        ≤ (evs.foldl (fun s e => (ppAdmission s e).1) init).ready.capacity)
      ∧ (evs.foldl (fun s e => (ppAdmission s e).1) init).ready.capacity
          = init.ready.capacity
      ∧ (∀ (q : TaskWaitingQueue) (sid : Nat), q.isFull = true → q.push sid = q) := by
  have main : ∀ (l : List (Option Nat)) (s : SchedState),
      s.ready.entries.length ≤ s.ready.capacity →
      ((l.foldl (fun s e => (ppAdmission s e).1) s).ready.entries.length
          ≤ (l.foldl (fun s e => (ppAdmission s e).1) s).ready.capacity)
        ∧ (l.foldl (fun s e => (ppAdmission s e).1) s).ready.capacity
            = s.ready.capacity := by
    intro l
    induction l with
    | nil => intro s hs; exact ⟨hs, rfl⟩
    | cons e rest ih =>
        intro s hs
        have hb := ppAdmission_bound s e hs
        have hrec := ih (ppAdmission s e).1 hb.1
        rw [List.foldl_cons]
        exact ⟨hrec.1, by rw [hrec.2, hb.2]⟩
  refine ⟨(main evs init h).1, (main evs init h).2, ?_⟩
  intro q sid hfull
  exact TaskWaitingQueue.push_full q sid hfull

/-- Witness for C3: capacity-1 queue already holding one entry, two ticks, the
first receiving sequence 9 (its push is rejected against the full queue). -/
theorem ready_queue_never_exceeds_capacity_witness :
    (SchedState.mk ⟨1, [5]⟩ [8] []).ready.entries.length
        ≤ (SchedState.mk ⟨1, [5]⟩ [8] []).ready.capacity
      ∧ ((([some 9, none] : List (Option Nat)).foldl (fun s e => (ppAdmission s e).1)
            (SchedState.mk ⟨1, [5]⟩ [8] [])).ready.entries.length
          ≤ (([some 9, none] : List (Option Nat)).foldl (fun s e => (ppAdmission s e).1)
              (SchedState.mk ⟨1, [5]⟩ [8] [])).ready.capacity
        ∧ (([some 9, none] : List (Option Nat)).foldl (fun s e => (ppAdmission s e).1)
              (SchedState.mk ⟨1, [5]⟩ [8] [])).ready.capacity
            = (SchedState.mk ⟨1, [5]⟩ [8] []).ready.capacity
        ∧ (∀ (q : TaskWaitingQueue) (sid : Nat), q.isFull = true → q.push sid = q)) :=
  ⟨by decide,
    ready_queue_never_exceeds_capacity (SchedState.mk ⟨1, [5]⟩ [8] []) [some 9, none]
      (by decide)⟩

/-- Auxiliary: every event of one layer-loop iteration belongs to that layer. -/
theorem layerCacheEvs_layerOf (step bs : Nat) (ps : Bool) (i : Nat) :
    ∀ ev ∈ layerCacheEvs step bs ps i, layerOf ev = i := by
  intro ev hev
  unfold layerCacheEvs at hev
  rcases List.mem_append.mp hev with h | h
  · rcases List.mem_append.mp h with h1 | h1
    · by_cases hc : step = 0 ∧ ps = true
      · rw [if_pos hc] at h1
        simp only [List.mem_singleton] at h1
        subst h1; rfl
      · rw [if_neg hc] at h1
        simp at h1
    · simp only [List.mem_singleton] at h1
      subst h1; rfl
  · by_cases hc : step = 0 ∧ 1 < bs
    · rw [if_pos hc] at h
      simp only [List.mem_singleton] at h
      subst h; rfl
    · rw [if_neg hc] at h
      simp at h

/-- Auxiliary: every event of a forward call belongs to an owned layer. -/
theorem fwdCacheTrace_layerOf (step bs : Nat) (ps : Bool) :
    ∀ (numLayers : Nat), ∀ ev ∈ fwdCacheTrace numLayers step bs ps, layerOf ev < numLayers := by
  intro numLayers
  induction numLayers with
  | zero => intro ev hev; simp [fwdCacheTrace] at hev
  | succ n ih =>
      intro ev hev
      rw [fwdCacheTrace] at hev
      rcases List.mem_append.mp hev with h | h
      · exact Nat.lt_succ_of_lt (ih ev h)
      · rw [layerCacheEvs_layerOf step bs ps n ev h]
        exact Nat.lt_succ_self n

/-- Auxiliary: the step-0 forward trace splits around layer `i`'s loop
iteration, with only lower layers before it and only higher layers after it. -/
theorem fwdCacheTrace_decompose (step bs : Nat) (ps : Bool) (i : Nat) :
    ∀ (numLayers : Nat), i < numLayers →
      ∃ X Y, fwdCacheTrace numLayers step bs ps = X ++ layerCacheEvs step bs ps i ++ Y
        ∧ (∀ ev ∈ X, layerOf ev < i) ∧ (∀ ev ∈ Y, i < layerOf ev) := by
  intro numLayers
  induction numLayers with
  | zero => intro h; exact absurd h (Nat.not_lt_zero i)
  | succ n ih =>
      intro h
      by_cases hin : i = n
      · subst hin
        refine ⟨fwdCacheTrace i step bs ps, [], ?_, fwdCacheTrace_layerOf step bs ps i, by simp⟩
        rw [List.append_nil, fwdCacheTrace]
      · have h2 : i < n := by omega
        obtain ⟨X, Y, hEq, hX, hY⟩ := ih h2
        refine ⟨X, Y ++ layerCacheEvs step bs ps n, ?_, hX, ?_⟩
        · rw [fwdCacheTrace, hEq]
          simp [List.append_assoc]
        · intro ev hev
          rcases List.mem_append.mp hev with hh | hh
          · exact hY ev hh
          · rw [layerCacheEvs_layerOf step bs ps n ev hh]
            omega

/-- Auxiliary: at a positive step the layer-loop iteration emits only the
KV append of that step — no beam or prefix expansion. -/
theorem layerCacheEvs_pos_step (step bs : Nat) (ps : Bool) (i : Nat) (h : 0 < step) :
    layerCacheEvs step bs ps i = [CacheEv.append i step] := by
  unfold layerCacheEvs
  rw [if_neg (by omega : ¬ (step = 0 ∧ ps = true)),
    if_neg (by omega : ¬ (step = 0 ∧ 1 < bs))]
  simp

/-- Auxiliary: a forward call at a positive step only appends, at that step. -/
theorem fwdCacheTrace_pos_step (step bs : Nat) (ps : Bool) (h : 0 < step) :
    ∀ (numLayers : Nat), ∀ ev ∈ fwdCacheTrace numLayers step bs ps,
      ∃ j, ev = CacheEv.append j step := by
  intro numLayers
  induction numLayers with
  | zero => intro ev hev; simp [fwdCacheTrace] at hev
  | succ n ih =>
      intro ev hev
      rw [fwdCacheTrace, layerCacheEvs_pos_step step bs ps n h] at hev
      rcases List.mem_append.mp hev with hh | hh
      · exact ih ev hh
      · simp only [List.mem_singleton] at hh
        exact ⟨n, hh⟩

/-- Auxiliary: a generation splits into the step-0 forward trace followed by
events of the positive steps, which are all appends at positive steps. -/
theorem genCacheTrace_split (numLayers bs : Nat) (ps : Bool) :
    ∀ (N : Nat), ∃ T, genCacheTrace numLayers (N + 1) bs ps
        = fwdCacheTrace numLayers 0 bs ps ++ T
      ∧ ∀ ev ∈ T, ∃ j s, ev = CacheEv.append j s ∧ 0 < s := by
  intro N
  induction N with
  | zero =>
      refine ⟨[], ?_, by simp⟩
      show genCacheTrace numLayers 1 bs ps = _
      rw [genCacheTrace, genCacheTrace]
      simp
  | succ n ih =>
      obtain ⟨T, hEq, hT⟩ := ih
      refine ⟨T ++ fwdCacheTrace numLayers (n + 1) bs ps, ?_, ?_⟩
      · show genCacheTrace numLayers (n + 1 + 1) bs ps = _
        rw [genCacheTrace, hEq]
        simp [List.append_assoc]
      · intro ev hev
        rcases List.mem_append.mp hev with hh | hh
        · exact hT ev hh
        · obtain ⟨j, hj⟩ := fwdCacheTrace_pos_step (n + 1) bs ps (Nat.succ_pos n)
            numLayers ev hh
          exact ⟨j, n + 1, hj, Nat.succ_pos n⟩

/-- Auxiliary: at step 0 with more than one beam, the layer-loop iteration of
layer `i` is an optional prefix expansion, then the step-0 append, then the
beam-cache expansion. -/
theorem layerCacheEvs_zero_beam (bs : Nat) (ps : Bool) (i : Nat) (hB : 1 < bs) :
    ∃ P, layerCacheEvs 0 bs ps i
        = P ++ (CacheEv.append i 0 :: [CacheEv.expandCache i])
      ∧ ∀ ev ∈ P, ev = CacheEv.prefixExpand i := by
  unfold layerCacheEvs
  rw [if_pos (⟨rfl, hB⟩ : (0 : Nat) = 0 ∧ 1 < bs)]
  by_cases hps : (0 : Nat) = 0 ∧ ps = true
  · rw [if_pos hps]
    exact ⟨[CacheEv.prefixExpand i], by simp, by simp⟩
  · rw [if_neg hps]
    exact ⟨[], by simp, by simp⟩

/-- Auxiliary: with at most one beam, no loop iteration emits a beam-cache
expansion. -/
theorem expandCache_not_mem_gen (numLayers bs : Nat) (ps : Bool) (i : Nat) (hbs : bs ≤ 1) :
    ∀ (nCalls : Nat), CacheEv.expandCache i ∉ genCacheTrace numLayers nCalls bs ps := by
  have hlayer : ∀ step j, CacheEv.expandCache i ∉ layerCacheEvs step bs ps j := by
    intro step j hmem
    unfold layerCacheEvs at hmem
    rcases List.mem_append.mp hmem with h | h
    · rcases List.mem_append.mp h with h1 | h1
      · by_cases hc : step = 0 ∧ ps = true
        · rw [if_pos hc] at h1; simp at h1
        · rw [if_neg hc] at h1; simp at h1
      · simp at h1
    · rw [if_neg (by omega : ¬ (step = 0 ∧ 1 < bs))] at h
      simp at h
  have hfwd : ∀ step L, CacheEv.expandCache i ∉ fwdCacheTrace L step bs ps := by
    intro step L
    induction L with
    | zero => simp [fwdCacheTrace]
    | succ n ih =>
        rw [fwdCacheTrace]
        intro hmem
        rcases List.mem_append.mp hmem with h | h
        · exact ih h
        · exact hlayer step n h
  intro nCalls
  induction nCalls with
  | zero => simp [genCacheTrace]
  | succ n ih =>
      rw [genCacheTrace]
      intro hmem
      rcases List.mem_append.mp hmem with h | h
      · exact ih h
      · exact hfwd n numLayers h

/-- C5: in a generation of forward calls with steps `0 .. N`, for every layer
`i` owned by the stage and `beamSize > 1`, `expandCache(i, ...)` occurs exactly
once in the cache-event trace — after layer `i`'s step-0 KV append and before
every append of a positive step to layer `i` — and it never occurs inside a
forward call with step greater than 0 nor anywhere when `beamSize ≤ 1`. -/
theorem expandCache_exactly_once (numLayers N bs i : Nat) (ps : Bool)
    (hL : i < numLayers) (hB : 1 < bs) :
    (∃ pre post,
      genCacheTrace numLayers (N + 1) bs ps = pre ++ CacheEv.expandCache i :: post
        ∧ CacheEv.expandCache i ∉ pre
        ∧ CacheEv.expandCache i ∉ post
        ∧ CacheEv.append i 0 ∈ pre
        ∧ (∀ s, 0 < s → CacheEv.append i s ∉ pre)
        ∧ (∀ s, CacheEv.append i s ∈ post → 0 < s))
      ∧ (∀ step, 0 < step → CacheEv.expandCache i ∉ fwdCacheTrace numLayers step bs ps)
      ∧ (∀ bs2, bs2 ≤ 1 → CacheEv.expandCache i ∉ genCacheTrace numLayers (N + 1) bs2 ps) := by
  obtain ⟨T, hGen, hT⟩ := genCacheTrace_split numLayers bs ps N
  obtain ⟨X, Y, hFwd, hX, hY⟩ := fwdCacheTrace_decompose 0 bs ps i numLayers hL
  obtain ⟨P, hEvs, hP⟩ := layerCacheEvs_zero_beam bs ps i hB
  refine ⟨⟨X ++ P ++ [CacheEv.append i 0], Y ++ T, ?_, ?_, ?_, ?_, ?_, ?_⟩, ?_, ?_⟩
  · rw [hGen, hFwd, hEvs]
    simp [List.append_assoc]
  · intro hmem
    rcases List.mem_append.mp hmem with h | h
    · rcases List.mem_append.mp h with h1 | h1
      · have := hX _ h1
        simp [layerOf] at this
      · have := hP _ h1
        simp at this
    · simp at h
  · intro hmem
    rcases List.mem_append.mp hmem with h | h
    · have := hY _ h
      simp [layerOf] at this
    · obtain ⟨j, s, hjs, _⟩ := hT _ h
      simp at hjs
  · simp
  · intro s hs hmem
    rcases List.mem_append.mp hmem with h | h
    · rcases List.mem_append.mp h with h1 | h1
      · have := hX _ h1
        simp [layerOf] at this
      · have := hP _ h1
        simp at this
    · simp only [List.mem_singleton, CacheEv.append.injEq] at h
      omega
  · intro s hmem
    rcases List.mem_append.mp hmem with h | h
    · have := hY _ h
      simp [layerOf] at this
    · obtain ⟨j, s2, hjs, hpos⟩ := hT _ h
      injection hjs with h3 h4
      omega
  · intro step hstep hmem
    obtain ⟨j, hj⟩ := fwdCacheTrace_pos_step step bs ps hstep numLayers _ hmem
    simp at hj
  · intro bs2 hbs2
    exact expandCache_not_mem_gen numLayers bs2 ps i hbs2 (N + 1)

/-- Witness for C5 at two layers, steps 0 and 1, two beams, layer 0, no
prefix sharing. -/
theorem expandCache_exactly_once_witness :
    0 < 2 ∧ 1 < 2 ∧
      ((∃ pre post,
        genCacheTrace 2 (1 + 1) 2 false = pre ++ CacheEv.expandCache 0 :: post
          ∧ CacheEv.expandCache 0 ∉ pre
          ∧ CacheEv.expandCache 0 ∉ post
          ∧ CacheEv.append 0 0 ∈ pre
          ∧ (∀ s, 0 < s → CacheEv.append 0 s ∉ pre)
          ∧ (∀ s, CacheEv.append 0 s ∈ post → 0 < s))
        ∧ (∀ step, 0 < step → CacheEv.expandCache 0 ∉ fwdCacheTrace 2 step 2 false)
        ∧ (∀ bs2, bs2 ≤ 1 → CacheEv.expandCache 0 ∉ genCacheTrace 2 (1 + 1) bs2 false)) :=
  ⟨by decide, by decide,
    expandCache_exactly_once 2 1 2 0 false (by decide) (by decide)⟩

/-- Auxiliary: the inner beam loop never writes rows below `b * beamSize`, rows
at or above `b * beamSize + j`, or row `b` itself. -/
theorem beamInnerIter_untouched {α : Type} (b beamSize : Nat) (buf : Nat → α) :
    ∀ (j r : Nat), (r < b * beamSize ∨ b * beamSize + j ≤ r ∨ r = b) →
      beamInnerIter b beamSize buf j r = buf r := by
  intro j
  induction j with
  | zero => intro r _; rfl
  | succ j ih =>
      intro r hr
      have hr2 : r < b * beamSize ∨ b * beamSize + j ≤ r ∨ r = b := by omega
      show (if b * beamSize + j = b then beamInnerIter b beamSize buf j
            else copyRow (beamInnerIter b beamSize buf j) (b * beamSize + j) b) r = buf r
      by_cases hskip : b * beamSize + j = b
      · simp only [if_pos hskip]
        exact ih r hr2
      · simp only [if_neg hskip, copyRow]
        have hne : r ≠ b * beamSize + j := by omega
        simp only [if_neg hne]
        exact ih r hr2

/-- Auxiliary: after `j` inner iterations, every already-visited beam row of
prompt `b` holds the original content of row `b`. -/
theorem beamInnerIter_copies {α : Type} (b beamSize : Nat) (buf : Nat → α) :
    ∀ (j jp : Nat), jp < j →
      beamInnerIter b beamSize buf j (b * beamSize + jp) = buf b := by
  intro j
  induction j with
  | zero => intro jp h; exact absurd h (Nat.not_lt_zero jp)
  | succ j ih =>
      intro jp hjp
      show (if b * beamSize + j = b then beamInnerIter b beamSize buf j
            else copyRow (beamInnerIter b beamSize buf j) (b * beamSize + j) b)
            (b * beamSize + jp) = buf b
      by_cases hlast : jp = j
      · subst hlast
        by_cases hskip : b * beamSize + jp = b
        · simp only [if_pos hskip, hskip]
          exact beamInnerIter_untouched b beamSize buf jp b (Or.inr (Or.inr rfl))
        · simp only [if_neg hskip, copyRow, if_pos rfl]
          exact beamInnerIter_untouched b beamSize buf jp b (Or.inr (Or.inr rfl))
      · have hlt : jp < j := by omega
        by_cases hskip : b * beamSize + j = b
        · simp only [if_pos hskip]
          exact ih jp hlt
        · simp only [if_neg hskip, copyRow]
          have hne : b * beamSize + jp ≠ b * beamSize + j := by omega
          simp only [if_neg hne]
          exact ih jp hlt

/-- Auxiliary: the outer beam loop over prompts `0 .. n - 1` leaves every row
at or above `n * beamSize` unchanged. -/
theorem expandBeams_high {α : Type} (beamSize : Nat) :
    ∀ (n : Nat) (buf : Nat → α) (r : Nat), n * beamSize ≤ r →
      expandBeams n beamSize buf r = buf r := by
  intro n
  induction n with
  | zero => intro buf r _; rfl
  | succ n ih =>
      intro buf r hr
      have hsm : (n + 1) * beamSize = n * beamSize + beamSize := by ring
      have h1 : n * beamSize ≤ r := by omega
      rw [expandBeams, ih _ r h1]
      exact beamInnerIter_untouched n beamSize buf beamSize r
        (Or.inr (Or.inl (by omega)))

/-- C2: after the step-0 beam replication, for every prompt `b < userSideBS`
every one of its `beamSize` beam rows — row indices `b * beamSize + j` for
`j < beamSize` — equals the single logits row originally computed for prompt
`b` (row `b` of the buffer before replication): all beams start identical. -/
theorem beam_replication_rows {α : Type} (beamSize : Nat) (hbs : 1 < beamSize) :
    ∀ (userSideBS : Nat) (buf : Nat → α) (b j : Nat),
      b < userSideBS → j < beamSize →
      expandBeams userSideBS beamSize buf (b * beamSize + j) = buf b := by
  intro n
  induction n with
  | zero => intro buf b j hb _; exact absurd hb (Nat.not_lt_zero b)
  | succ n ih =>
      intro buf b j hb hj
      by_cases hbn : b = n
      · subst hbn
        rw [expandBeams,
          expandBeams_high beamSize b (beamCopy b beamSize buf) (b * beamSize + j)
            (Nat.le_add_right _ j)]
        exact beamInnerIter_copies b beamSize buf beamSize j hj
      · have hb2 : b < n := by omega
        rw [expandBeams, ih (beamCopy n beamSize buf) b j hb2 hj]
        exact beamInnerIter_untouched n beamSize buf beamSize b
          (Or.inl (by
            have h1 : 1 ≤ beamSize := by omega
            have := Nat.mul_le_mul_left n h1
            omega))

/-- Witness for C2: two prompts, four beams, a buffer whose row `r` holds the
value `r`; after replication, beam row `1 * 4 + 3 = 7` holds prompt 1's row. -/
theorem beam_replication_rows_witness :
    1 < 4 ∧ 1 < 2 ∧ 3 < 4 ∧
      expandBeams 2 4 (fun r => (r : ℚ)) (1 * 4 + 3) = (1 : ℚ) :=
  ⟨by decide, by decide, by decide,
    beam_replication_rows 4 (by decide) 2 (fun r => (r : ℚ)) 1 3 (by decide) (by decide)⟩

/-- Auxiliary: for any run of forward calls whose steps are all positive
(so the step-0 reset never fires), `accSeqLen` just accumulates the list sum. -/
theorem runForwardCalls_acc_of_pos (seqLens : List Nat) :
    ∀ (s : DecoderState) (step : Nat), 1 ≤ step →
      (runForwardCalls s step seqLens).accSeqLen = s.accSeqLen + seqLens.sum := by
  induction seqLens with
  | nil => intro s step _; simp [runForwardCalls]
  | cons l rest ih =>
      intro s step hstep
      have hne : step ≠ 0 := Nat.one_le_iff_ne_zero.mp hstep
      have h1 : forwardSeqState s step l = { s with accSeqLen := s.accSeqLen + l } := by
        simp [forwardSeqState, hne]
      rw [runForwardCalls, h1, ih _ (step + 1) (Nat.le_add_left 1 step)]
      simp [List.sum_cons]
      omega

/-- C1: for a generation consisting of forward calls with steps 0, 1, ..., the
accumulated sequence length after the k-th call equals the sum of the `seqLen`
(`dims[2]`) arguments of calls 0 through k, whatever state the decoder started
in: the step-0 call first resets `accSeqLen` to 0 before adding its own length. -/
theorem forward_accSeqLen_is_sum (s : DecoderState) (seqLens : List Nat) (k : Nat)
    (hk : k < seqLens.length) :
    (runForwardCalls s 0 (seqLens.take (k + 1))).accSeqLen = (seqLens.take (k + 1)).sum := by
  cases seqLens with
  | nil => exact absurd hk (Nat.not_lt_zero k)
  | cons l rest =>
      have hstep0 : forwardSeqState s 0 l
          = { s with initSeqLen := l, accSeqLen := 0 + l } := by
        simp [forwardSeqState]
      rw [List.take_succ_cons, runForwardCalls, hstep0,
        runForwardCalls_acc_of_pos _ _ 1 (Nat.le_refl 1)]
      simp [List.sum_cons]

/-- Witness for C1 at a concrete run: calls with seqLens 3, 1, 1 starting from a
dirty state (`accSeqLen = 7`); after call 2 the accumulated length is 3+1+1. -/
theorem forward_accSeqLen_is_sum_witness :
    2 < ([3, 1, 1] : List Nat).length ∧
      (runForwardCalls ⟨0, 7, 0, false⟩ 0 (([3, 1, 1] : List Nat).take 3)).accSeqLen
        = (([3, 1, 1] : List Nat).take 3).sum :=
  ⟨by decide, forward_accSeqLen_is_sum ⟨0, 7, 0, false⟩ [3, 1, 1] 2 (by decide)⟩

/-- C7: decoder construction passes the layer-divisibility gate exactly when the
configured layer count is divisible by the pipeline-parallel stage count; a
non-divisible count is a fatal startup error carrying a diagnostic. -/
theorem layersDivisibilityCheck_ok_iff (layers ppSize : Nat) :
    (layersDivisibilityCheck layers ppSize = Except.ok () ↔ ppSize ∣ layers)
      ∧ (layersDivisibilityCheck layers ppSize
          = Except.error "layers cannot be evenly divided by pipeline parallel stage size(ppSize)"
          ↔ ¬ ppSize ∣ layers) := by
  have hdvd : ppSize ∣ layers ↔ layers % ppSize = 0 := Nat.dvd_iff_mod_eq_zero
  by_cases h : layers % ppSize = 0
  · simp [layersDivisibilityCheck, h, hdvd]
  · simp [layersDivisibilityCheck, h, hdvd]

/-- C8: when an execution context already exists, re-deriving it returns the
existing context unchanged exactly when the requested hidden size, attention
head count, KV head count, intermediate size and TP rank match the existing
ones, and is the fatal diagnostic exactly when they do not. -/
theorem getDecoderContext_rederive (c req : CtxShape) :
    (getDecoderContext (some c) req = Except.ok c ↔ c.sameShape req)
      ∧ (getDecoderContext (some c) req = Except.error "Different context size not unsupported!"
          ↔ ¬ c.sameShape req) := by
  by_cases h : c.sameShape req
  · simp [getDecoderContext, h]
  · simp [getDecoderContext, h]

/-- C4: in the per-layer loop, when attention and FFN are not parallel
(`ATTN_MLP_PARALLEL = false`) the trace is attention, an attention all-reduce
exactly when the TP group has more than one worker, FFN consuming the
(reduced) attention output, and a second reduction exactly when the TP group
has more than one worker; when they are parallel, no separate attention
reduction ever occurs and FFN consumes the original per-layer input `embBuf`. -/
theorem layerTrace_reduction_protocol (workers : Nat) :
    (layerTrace false workers
        = if 1 < workers then
            [LayerEvent.attn, LayerEvent.reduceAttn, LayerEvent.ffn FFNSrc.attnOut,
              LayerEvent.reduceFFN]
          else [LayerEvent.attn, LayerEvent.ffn FFNSrc.attnOut])
      ∧ (layerTrace true workers
          = if 1 < workers then
              [LayerEvent.attn, LayerEvent.ffn FFNSrc.embBuf, LayerEvent.reduceFFN]
            else [LayerEvent.attn, LayerEvent.ffn FFNSrc.embBuf]) := by
  by_cases h : 1 < workers
  · simp [layerTrace, h]
  · simp [layerTrace, h]

/-- C6: for a single-TP-rank, single-PP-stage forward at step 0 with batch
size 1 and prompt length 4, the predictor receives 1 row when `logitsAll` is
false and 4 rows (one per position) when it is true; the layer-norm input with
`logitsAll` false is exactly the hidden state of the last token (row 3 of
`embBuf`); and the returned shard size with one worker is the full vocabulary. -/
theorem forward_logits_rows_scenario (vocabSize : Nat) :
    forwardLogitsRows 1 1 4 0 false = 1
      ∧ forwardLogitsRows 1 1 4 0 true = 4
      ∧ (∀ embRows : Nat → ℚ, lnInput embRows 4 false 0 = embRows 3)
      ∧ splitSize vocabSize 1 0 = vocabSize := by
  refine ⟨by decide, by decide, ?_, ?_⟩
  · intro embRows
    simp [lnInput]
  · simp [splitSize, splitChunk, splitOffset]

/-- C9: the continuous-batch forward called with an empty sequence vector
returns `(nullptr, 0, 0)` at once and leaves the decoder state — context
shape, activation buffers, everything — untouched. -/
theorem forwardSeqs_empty (st : CBDecoderState) (logitsAll : Bool) :
    forwardSeqs st [] logitsAll = (st, (none, 0, 0)) := by
  rfl

end XFT
